import Mathlib

/-!
Verification of the haidomo speed-run timer core: the Run Data binary codec
(src/splits_file.rs) and the Stopwatch / StopSplit timing state machines
(src/stopwatch.rs), shallowly embedded in Lean.

Modelling conventions:
* Rust byte buffers are `List Nat` with values below 256.
* Rust `String` values are modelled by their UTF-8 byte sequences
  (`List Nat`); `String::len` is the byte length, `String::find` locates a
  byte, and pushing `char::from(b)` appends the UTF-8 encoding of the
  Unicode scalar `b` (one byte when `b < 128`, two bytes otherwise).
* `f64` split times are modelled by their 64-bit IEEE-754 bit patterns as
  naturals below 2^64; the codec only moves these patterns through
  `to_le_bytes` / `from_le_bytes`, which are bit-level inverses.
* `std::time::Duration` is a pair of seconds (u64) and sub-second
  nanoseconds; `Duration::new` normalises nanoseconds and panics when the
  carried seconds overflow u64.
* Fallible decoding returns a three-way result `DRes`: a parsed value, a
  `ParseErr`, or `panic` (modelling Rust panics: out-of-bounds indexing,
  usize subtraction overflow, failed conversions).
* Instants and durations in the stopwatch are nanosecond counts (`Nat`);
  `Instant::elapsed` is saturating, hence truncated subtraction.
-/

/-- The ParseErr enum from src/splits_file.rs. -/
inductive ParseErr where
  | InvalidHeaderLength
  | InvalidSignature
  | InvalidRunName
  | UnknownVersion
  | InvalidSplitsChunk
  | InvalidAttemptsChunk
deriving DecidableEq, Repr

/-- Result of running a fallible, possibly panicking Rust computation. -/
inductive DRes (α : Type) where
  | ok : α → DRes α
  | err : ParseErr → DRes α
  | panic : DRes α
deriving DecidableEq, Repr

/-- Structured form of the String error messages produced by as_bytes
(each constructor records which check failed and the offending sizes). -/
inductive EncodeErr where
  | runNameTooLong (len : Nat)
  | tooManySplits (count : Nat)
  | splitNameTooLong (name : List Nat) (len : Nat)
  | tooManyAttempts (count : Nat)
  | attemptMismatch (idx maxSplits used : Nat)
deriving DecidableEq, Repr

/-- True for the four length-cap errors, false for the attempt/split-count
mismatch error. -/
def EncodeErr.isLengthErr : EncodeErr → Bool
  | .attemptMismatch _ _ _ => false
  | _ => true

/-- std::time::Duration: whole seconds plus sub-second nanoseconds. -/
structure Duration where
  secs : Nat
  nanos : Nat
deriving DecidableEq, Repr

/-- Duration::new: normalises nanoseconds into seconds; none models the
panic when the carried seconds overflow u64. -/
def Duration.new? (s n : Nat) : Option Duration :=
  let s2 := s + n / 1000000000
  if s2 < 2 ^ 64 then some ⟨s2, n % 1000000000⟩ else none

/-- AttemptData from src/splits_file.rs; split_times are f64 bit patterns. -/
structure AttemptData where
  total_duration : Duration
  split_times : List Nat
deriving DecidableEq, Repr

/-- RunData from src/splits_file.rs; name and split names are UTF-8 byte
sequences. -/
structure RunData where
  version : Nat
  name : List Nat
  splits : List (List Nat)
  attempts : List AttemptData
deriving DecidableEq, Repr

/-- The codec write version (const VERSION: u8 = 0). -/
def VERSION : Nat := 0

/-- The 4-byte file signature: b s s 69. -/
def SIGNATURE : List Nat := [98, 115, 115, 69]

/-- Little-endian byte encoding of a number on k bytes (to_le_bytes). -/
def natToLe : Nat → Nat → List Nat
  | 0, _ => []
  | k + 1, n => n % 256 :: natToLe k (n / 256)

/-- Number read from little-endian bytes (from_le_bytes). -/
def leToNat : List Nat → Nat
  | [] => 0
  | b :: t => b + 256 * leToNat t

/-- UTF-8 bytes of the Unicode scalar with the numeric value of one raw
byte: char::from(b) pushed onto a String. -/
def latin1Byte (b : Nat) : List Nat :=
  if b < 128 then [b] else [192 + b / 64, 128 + b % 64]

/-- The string built by read_str_bytes: each raw byte becomes the char of
equal numeric value; result given as the string's UTF-8 byte sequence. -/
def latin1Decode (bs : List Nat) : List Nat :=
  bs.flatMap latin1Byte

/-- Buffer indexing content[i]: panics when out of bounds. -/
def idx (content : List Nat) (i : Nat) : DRes Nat :=
  match content.get? i with
  | some b => .ok b
  | none => .panic

/-- usize subtraction a - b: panics on underflow (overflow-checked
semantics; in release builds the wrapped value leads to an out-of-bounds
index panic at the same inputs). -/
def csub (a b : Nat) : DRes Nat :=
  if b ≤ a then .ok (a - b) else .panic

/-- skip(offset).take(n) collected and converted by from_le_bytes; panics
(try_into().expect) when fewer than n bytes remain. -/
def readLe (content : List Nat) (offset n : Nat) : DRes Nat :=
  let v := (content.drop offset).take n
  if v.length = n then .ok (leToNat v) else .panic

/-- Sequencing of fallible decoding steps. -/
def DRes.bind {α β : Type} : DRes α → (α → DRes β) → DRes β
  | .ok a, f => f a
  | .err e, _ => .err e
  | .panic, _ => .panic

/-- The signature-comparison loop at the top of from_bytes: checks each
signature byte at the running offset. -/
def checkSig (content : List Nat) : Nat → List Nat → DRes Nat
  | offset, [] => .ok offset
  | offset, sb :: rest =>
    (idx content offset).bind fun b =>
    if b = sb then checkSig content (offset + 1) rest
    else .err .InvalidSignature

/-- The splits-reading loop of from_bytes: reads chunk_len split names,
each prefixed by a length byte that is validated against the remaining
buffer size. -/
def parseSplits (content : List Nat) (contentLen : Nat) :
    Nat → Nat → List (List Nat) → DRes (Nat × List (List Nat))
  | 0, offset, acc => .ok (offset, acc.reverse)
  | k + 1, offset, acc =>
    (idx content offset).bind fun snl =>
    (csub contentLen (offset + 1)).bind fun rem =>
    if rem < snl then .err .InvalidSplitsChunk
    else parseSplits content contentLen k (offset + 1 + snl)
      (latin1Decode ((content.drop (offset + 1)).take snl) :: acc)

/-- The inner loop reading splits_used_count f64 split times (8 bytes
each, little-endian bit patterns). -/
def parseTimes (content : List Nat) : Nat → Nat → List Nat → DRes (Nat × List Nat)
  | 0, offset, acc => .ok (offset, acc.reverse)
  | k + 1, offset, acc =>
    (readLe content offset 8).bind fun s =>
    parseTimes content k (offset + 8) (s :: acc)

/-- The attempts-reading loop of from_bytes: per attempt, total seconds
(u64), sub-second nanos (u32), a used-count byte, then that many f64
times; an attempt whose used count is 0 is skipped entirely. -/
def parseAttempts (content : List Nat) (contentLen : Nat) :
    Nat → Nat → List AttemptData → DRes (Nat × List AttemptData)
  | 0, offset, acc => .ok (offset, acc.reverse)
  | k + 1, offset, acc =>
    (csub contentLen offset).bind fun rem =>
    if rem < 13 then .err .InvalidAttemptsChunk
    else
    (readLe content offset 8).bind fun seconds =>
    (readLe content (offset + 8) 4).bind fun nanos =>
    (idx content (offset + 12)).bind fun used =>
    if used = 0 then parseAttempts content contentLen k (offset + 13) acc
    else
    (csub contentLen (offset + 13)).bind fun rem2 =>
    if rem2 < 8 * used then .err .InvalidAttemptsChunk
    else
    (parseTimes content used (offset + 13) []).bind fun res =>
    match Duration.new? seconds nanos with
    | none => .panic
    | some d => parseAttempts content contentLen k res.1 (⟨d, res.2⟩ :: acc)

/-- RunData::from_bytes, translated check for check from
src/splits_file.rs lines 168-271. -/
def RunData.from_bytes (content : List Nat) : DRes RunData :=
  if content.length < 6 then .err .InvalidHeaderLength
  else
  (checkSig content 0 SIGNATURE).bind fun off0 =>
  (idx content off0).bind fun version =>
  if VERSION < version then .err .UnknownVersion
  else
  (idx content (off0 + 1)).bind fun name_len =>
  if name_len = 0 then .err .InvalidRunName
  else
  (csub content.length (off0 + 1)).bind fun rem0 =>
  if rem0 < name_len then .err .InvalidHeaderLength
  else
  let name := latin1Decode ((content.drop (off0 + 2)).take name_len)
  (csub content.length (off0 + 2 + name_len)).bind fun rem1 =>
  if rem1 ≤ 2 then .err .InvalidSplitsChunk
  else
  (idx content (off0 + 2 + name_len)).bind fun splits_n =>
  (parseSplits content content.length splits_n (off0 + 2 + name_len + 1) []).bind fun resS =>
  (csub content.length resS.1).bind fun rem2 =>
  if rem2 = 0 then .err .InvalidAttemptsChunk
  else
  (idx content resS.1).bind fun attempts_n =>
  (parseAttempts content content.length attempts_n (resS.1 + 1) []).bind fun resA =>
  .ok ⟨version, name, resS.2, resA.2⟩

/-- The split-name writing loop of as_bytes: validates each name length
and emits the length byte followed by the name bytes. -/
def encodeSplits : List (List Nat) → Except EncodeErr (List Nat)
  | [] => .ok []
  | s :: rest =>
    if 255 < s.length then .error (.splitNameTooLong s s.length)
    else match encodeSplits rest with
      | .error e => .error e
      | .ok tail => .ok (s.length :: (s ++ tail))

/-- The attempt-writing loop of as_bytes: per attempt, total seconds (8
bytes), nanos (4 bytes), the used count (validated against the run's
split count), then the f64 times. idx0 is the index of the first attempt,
used in the mismatch error message. -/
def encodeAttempts (splitsCount : Nat) : Nat → List AttemptData → Except EncodeErr (List Nat)
  | _, [] => .ok []
  | i, a :: rest =>
    if splitsCount < a.split_times.length then
      .error (.attemptMismatch i splitsCount a.split_times.length)
    else match encodeAttempts splitsCount (i + 1) rest with
      | .error e => .error e
      | .ok tail =>
        .ok (natToLe 8 a.total_duration.secs ++ natToLe 4 a.total_duration.nanos ++
          a.split_times.length :: (a.split_times.flatMap (natToLe 8) ++ tail))

/-- RunData::as_bytes, translated check for check from src/splits_file.rs
lines 296-352 (error checks occur in source order; a failed check
discards the partially built buffer). -/
def RunData.as_bytes (r : RunData) : Except EncodeErr (List Nat) :=
  if 255 < r.name.length then .error (.runNameTooLong r.name.length)
  else if 255 < r.splits.length then .error (.tooManySplits r.splits.length)
  else match encodeSplits r.splits with
    | .error e => .error e
    | .ok splitsB =>
      if 255 < r.attempts.length then .error (.tooManyAttempts r.attempts.length)
      else match encodeAttempts r.splits.length 0 r.attempts with
        | .error e => .error e
        | .ok attemptsB =>
          .ok (SIGNATURE ++ r.version :: r.name.length ::
            (r.name ++ r.splits.length :: (splitsB ++ r.attempts.length :: attemptsB)))

/-- RunData::get_title: the bytes before the first colon, or the whole
name when there is none. -/
def RunData.get_title (r : RunData) : List Nat :=
  match r.name.findIdx? (fun b => b = 58) with
  | some i => r.name.take i
  | none => r.name

/-- RunData::get_subtitle: the bytes after the first colon when nonempty,
none otherwise. -/
def RunData.get_subtitle (r : RunData) : Option (List Nat) :=
  match r.name.findIdx? (fun b => b = 58) with
  | some i => if r.name.length ≤ i + 1 then none else some (r.name.drop (i + 1))
  | none => none

/-- RunData::set_subtitle: rebuilds name as title or title:subtitle; an
empty subtitle collapses the name to the bare title. -/
def RunData.set_subtitle (r : RunData) (subtitle : List Nat) : RunData :=
  let title :=
    match r.name.findIdx? (fun b => b = 58) with
    | some i => r.name.take i
    | none => []
  if subtitle = [] then { r with name := title }
  else { r with name := title ++ 58 :: subtitle }

/-- Stopwatch from src/stopwatch.rs: an optional running-since instant
and the accumulated elapsed duration (both in nanoseconds). -/
structure Stopwatch where
  start_time : Option Nat
  elapsed : Nat
deriving DecidableEq, Repr

/-- Stopwatch::time_elapsed at ambient instant now: accumulated plus the
live delta when running (Instant::elapsed is saturating). -/
def Stopwatch.time_elapsed (sw : Stopwatch) (now : Nat) : Nat :=
  sw.elapsed +
    match sw.start_time with
    | none => 0
    | some x => now - x

/-- Stopwatch::is_running. -/
def Stopwatch.is_running (sw : Stopwatch) : Bool :=
  sw.start_time.isSome

/-- Stopwatch::pause at ambient instant now: returns the new state and
the returned Duration. -/
def Stopwatch.pause (sw : Stopwatch) (now : Nat) : Stopwatch × Nat :=
  match sw.start_time with
  | some _ =>
    let total := sw.time_elapsed now
    (⟨none, total⟩, total)
  | none => (sw, sw.elapsed)

/-- Stopwatch::start at ambient instant now. -/
def Stopwatch.start (sw : Stopwatch) (now : Nat) : Stopwatch :=
  match sw.start_time with
  | some _ => sw
  | none => ⟨some now, sw.elapsed⟩

/-- Stopwatch::clear. -/
def Stopwatch.clear (_sw : Stopwatch) : Stopwatch :=
  ⟨none, 0⟩

/-- StopSplit from src/stopwatch.rs. -/
structure StopSplit where
  split_start : Option Nat
  elapsed : Nat
  completed : Bool
deriving DecidableEq, Repr

/-- StopSplit::new. -/
def StopSplit.new : StopSplit :=
  ⟨none, 0, false⟩

/-- StopSplit::not_started. -/
def StopSplit.not_started (sp : StopSplit) : Bool :=
  sp.split_start.isNone

/-- StopSplit::is_done. -/
def StopSplit.is_done (sp : StopSplit) : Bool :=
  !sp.not_started && sp.completed

/-- StopSplit::time_elapsed against a stopwatch at ambient instant now:
zero when unstarted, the frozen elapsed when completed, live difference
otherwise (Rust Duration subtraction panics on underflow; the caller
sequencing contract keeps the live branch non-negative, modelled with
truncated subtraction). -/
def StopSplit.time_elapsed (sp : StopSplit) (sw : Stopwatch) (now : Nat) : Nat :=
  match sp.split_start with
  | none => 0
  | some st => if sp.completed then sp.elapsed else sw.time_elapsed now - st

/-- StopSplit::start_at_zero. -/
def StopSplit.start_at_zero (sp : StopSplit) : StopSplit :=
  if !sp.not_started then sp
  else if sp.is_done then sp
  else ⟨some 0, 0, sp.completed⟩

/-- StopSplit::start against the stopwatch's current elapsed time. -/
def StopSplit.start (sp : StopSplit) (sw : Stopwatch) (now : Nat) : StopSplit :=
  if !sp.not_started then sp
  else if sp.is_done then sp
  else ⟨some (sw.time_elapsed now), 0, sp.completed⟩

/-- StopSplit::stop: when started (completed or not), recomputes elapsed
from the stopwatch and marks the split completed; none models the panic
of Duration subtraction underflow. -/
def StopSplit.stop (sp : StopSplit) (sw : Stopwatch) (now : Nat) : Option StopSplit :=
  match sp.split_start with
  | none => some sp
  | some st =>
    let swe := sw.time_elapsed now
    if st ≤ swe then some ⟨some st, swe - st, true⟩ else none

/-- StopSplit::resume. -/
def StopSplit.resume (sp : StopSplit) : StopSplit :=
  if !sp.not_started then { sp with completed := false } else sp

/-- StopSplit::clear. -/
def StopSplit.clear (_sp : StopSplit) : StopSplit :=
  ⟨none, 0, false⟩

/-- Well-formedness of an attempt relative to the run's split count: the
count cap and, reflecting the Rust types, 64-bit split-time patterns and
a normalised duration; non-emptiness is required because decoding skips
attempts with zero recorded split times. -/
def AttemptData.wf (splitsCount : Nat) (a : AttemptData) : Prop :=
  a.split_times.length ≤ splitsCount ∧ a.split_times ≠ [] ∧
  (∀ t ∈ a.split_times, t < 2 ^ 64) ∧
  a.total_duration.secs < 2 ^ 64 ∧ a.total_duration.nanos < 1000000000

/-- Round-trippable Run Data: the size caps of the spec, write version 0,
ASCII names (non-ASCII name bytes are re-encoded differently by the
byte-to-char read), every attempt non-empty, and not both collections
empty (the decoder rejects a buffer with fewer than 3 bytes after the
name). -/
def RunData.wf (r : RunData) : Prop :=
  r.version = 0 ∧
  r.name ≠ [] ∧ r.name.length ≤ 255 ∧ (∀ b ∈ r.name, b < 128) ∧
  r.splits.length ≤ 255 ∧ (∀ s ∈ r.splits, s.length ≤ 255 ∧ ∀ b ∈ s, b < 128) ∧
  r.attempts.length ≤ 255 ∧ (∀ a ∈ r.attempts, a.wf r.splits.length) ∧
  (r.splits ≠ [] ∨ r.attempts ≠ [])

instance {ε α : Type} [DecidableEq ε] [DecidableEq α] : DecidableEq (Except ε α) := fun a b =>
  match a, b with
  | .ok x, .ok y =>
    if h : x = y then .isTrue (by rw [h]) else .isFalse (by intro hc; cases hc; exact h rfl)
  | .error x, .error y =>
    if h : x = y then .isTrue (by rw [h]) else .isFalse (by intro hc; cases hc; exact h rfl)
  | .ok _, .error _ => .isFalse (by intro hc; cases hc)
  | .error _, .ok _ => .isFalse (by intro hc; cases hc)

instance (cnt : Nat) (a : AttemptData) : Decidable (a.wf cnt) := by
  unfold AttemptData.wf; infer_instance

instance (r : RunData) : Decidable r.wf := by
  unfold RunData.wf; infer_instance

/-- The byte block emitted for one split name list. -/
def splitsBytes (ss : List (List Nat)) : List Nat :=
  ss.flatMap fun s => s.length :: s

/-- The byte block emitted for one attempt. -/
def attemptBytes (a : AttemptData) : List Nat :=
  natToLe 8 a.total_duration.secs ++ natToLe 4 a.total_duration.nanos ++
    a.split_times.length :: a.split_times.flatMap (natToLe 8)

/-- The byte block emitted for an attempt list. -/
def attemptsBytes (l : List AttemptData) : List Nat :=
  l.flatMap attemptBytes

theorem encodeSplits_eq (ss : List (List Nat)) (h : ∀ s ∈ ss, s.length ≤ 255) :
    encodeSplits ss = .ok (splitsBytes ss) := by
  induction ss with
  | nil => rfl
  | cons s rest ih =>
    have hs : s.length ≤ 255 := h s (List.mem_cons_self s rest)
    have hrest : ∀ x ∈ rest, x.length ≤ 255 := fun x hx => h x (List.mem_cons_of_mem s hx)
    simp only [encodeSplits, if_neg (by omega : ¬ 255 < s.length), ih hrest]
    simp [splitsBytes]

theorem encodeAttempts_eq (cnt : Nat) (l : List AttemptData)
    (h : ∀ a ∈ l, a.split_times.length ≤ cnt) (i : Nat) :
    encodeAttempts cnt i l = .ok (attemptsBytes l) := by
  induction l generalizing i with
  | nil => rfl
  | cons a rest ih =>
    have ha : a.split_times.length ≤ cnt := h a (List.mem_cons_self a rest)
    have hrest : ∀ x ∈ rest, x.split_times.length ≤ cnt :=
      fun x hx => h x (List.mem_cons_of_mem a hx)
    simp only [encodeAttempts, if_neg (by omega : ¬ cnt < a.split_times.length),
      ih hrest]
    simp [attemptsBytes, attemptBytes]

theorem as_bytes_eq (r : RunData)
    (hname : r.name.length ≤ 255) (hsc : r.splits.length ≤ 255)
    (hsn : ∀ s ∈ r.splits, s.length ≤ 255) (hac : r.attempts.length ≤ 255)
    (hmm : ∀ a ∈ r.attempts, a.split_times.length ≤ r.splits.length) :
    r.as_bytes = .ok (SIGNATURE ++ r.version :: r.name.length ::
      (r.name ++ r.splits.length ::
        (splitsBytes r.splits ++ r.attempts.length :: attemptsBytes r.attempts))) := by
  simp [RunData.as_bytes, encodeSplits_eq r.splits hsn,
    encodeAttempts_eq r.splits.length r.attempts hmm 0,
    Nat.not_lt.mpr hname, Nat.not_lt.mpr hsc, Nat.not_lt.mpr hac]

theorem encodeSplits_err (ss : List (List Nat)) (h : ∃ s ∈ ss, 255 < s.length) :
    ∃ s, 255 < s.length ∧ encodeSplits ss = .error (.splitNameTooLong s s.length) := by
  induction ss with
  | nil => simp at h
  | cons s rest ih =>
    by_cases hs : 255 < s.length
    · exact ⟨s, hs, by simp [encodeSplits, if_pos hs]⟩
    · have hr : ∃ x ∈ rest, 255 < x.length := by
        rcases h with ⟨x, hx, hlen⟩
        rcases List.mem_cons.mp hx with rfl | hx2
        · exact absurd hlen hs
        · exact ⟨x, hx2, hlen⟩
      rcases ih hr with ⟨x, hlen, heq⟩
      exact ⟨x, hlen, by simp [encodeSplits, if_neg hs, heq]⟩

theorem encodeAttempts_err (cnt : Nat) (l : List AttemptData)
    (h : ∃ a ∈ l, cnt < a.split_times.length) (i : Nat) :
    ∃ k a, l.get? k = some a ∧ cnt < a.split_times.length ∧
      encodeAttempts cnt i l = .error (.attemptMismatch (i + k) cnt a.split_times.length) := by
  induction l generalizing i with
  | nil => simp at h
  | cons a rest ih =>
    by_cases ha : cnt < a.split_times.length
    · exact ⟨0, a, rfl, ha, by simp [encodeAttempts, if_pos ha]⟩
    · have hr : ∃ x ∈ rest, cnt < x.split_times.length := by
        rcases h with ⟨x, hx, hlen⟩
        rcases List.mem_cons.mp hx with rfl | hx2
        · exact absurd hlen ha
        · exact ⟨x, hx2, hlen⟩
      rcases ih hr (i + 1) with ⟨k, x, hget, hlen, heq⟩
      refine ⟨k + 1, x, hget, hlen, ?_⟩
      simp only [encodeAttempts, if_neg ha, heq]
      have : i + 1 + k = i + (k + 1) := by omega
      rw [this]

theorem encodeAttempts_ok_mm (cnt : Nat) (l : List AttemptData) (i : Nat) (bs : List Nat)
    (h : encodeAttempts cnt i l = .ok bs) :
    ∀ a ∈ l, a.split_times.length ≤ cnt := by
  induction l generalizing i bs with
  | nil => simp
  | cons a rest ih =>
    intro x hx
    by_cases ha : cnt < a.split_times.length
    · simp [encodeAttempts, if_pos ha] at h
    · rcases List.mem_cons.mp hx with rfl | hx2
      · omega
      · simp only [encodeAttempts, if_neg ha] at h
        rcases heq : encodeAttempts cnt (i + 1) rest with e | tail
        · rw [heq] at h; simp at h
        · exact ih (i + 1) tail heq x hx2

theorem encodeAttempts_err_shape (cnt : Nat) (l : List AttemptData) (i : Nat) (e : EncodeErr)
    (h : encodeAttempts cnt i l = .error e) :
    ∃ k m u, e = .attemptMismatch k m u := by
  induction l generalizing i with
  | nil => simp [encodeAttempts] at h
  | cons a rest ih =>
    by_cases ha : cnt < a.split_times.length
    · simp only [encodeAttempts, if_pos ha, Except.error.injEq] at h
      exact ⟨i, cnt, a.split_times.length, h.symm⟩
    · simp only [encodeAttempts, if_neg ha] at h
      rcases heq : encodeAttempts cnt (i + 1) rest with e2 | tail
      · rw [heq] at h
        simp only [Except.error.injEq] at h
        subst h
        exact ih (i + 1) heq
      · rw [heq] at h; simp at h

@[simp] theorem DRes.ok_bind {α β : Type} (a : α) (f : α → DRes β) :
    (DRes.ok a).bind f = f a := rfl

@[simp] theorem DRes.err_bind {α β : Type} (e : ParseErr) (f : α → DRes β) :
    (DRes.err e).bind f = .err e := rfl

theorem DRes.bind_eq_ok {α β : Type} {x : DRes α} {f : α → DRes β} {b : β}
    (h : x.bind f = .ok b) : ∃ a, x = .ok a ∧ f a = .ok b := by
  cases x with
  | ok a => exact ⟨a, rfl, h⟩
  | err e => simp [DRes.bind] at h
  | panic => simp [DRes.bind] at h

theorem natToLe_length (k n : Nat) : (natToLe k n).length = k := by
  induction k generalizing n with
  | zero => rfl
  | succ k ih => simp [natToLe, ih]

theorem leToNat_natToLe (k n : Nat) (h : n < 256 ^ k) : leToNat (natToLe k n) = n := by
  induction k generalizing n with
  | zero =>
    have h1 : n < 1 := by simpa using h
    simp [natToLe, leToNat]
    omega
  | succ k ih =>
    have hdiv : n / 256 < 256 ^ k := by
      rw [Nat.div_lt_iff_lt_mul (by omega : 0 < 256)]
      calc n < 256 ^ (k + 1) := h
        _ = 256 ^ k * 256 := by ring
    simp only [natToLe, leToNat, ih (n / 256) hdiv]
    omega

theorem flatMapLe_length (ts : List Nat) : (ts.flatMap (natToLe 8)).length = 8 * ts.length := by
  induction ts with
  | nil => rfl
  | cons t ts ih => simp [natToLe_length, ih]; omega

theorem attemptBytes_length (a : AttemptData) :
    (attemptBytes a).length = 13 + 8 * a.split_times.length := by
  simp only [attemptBytes, List.length_append, List.length_cons, natToLe_length,
    flatMapLe_length]
  omega

theorem latin1Decode_ascii (bs : List Nat) (h : ∀ b ∈ bs, b < 128) :
    latin1Decode bs = bs := by
  induction bs with
  | nil => rfl
  | cons b t ih =>
    have hb : b < 128 := h b (List.mem_cons_self b t)
    have ht := ih fun x hx => h x (List.mem_cons_of_mem b hx)
    simp [latin1Decode, latin1Byte, hb] at ht ⊢
    exact ht

theorem latin1Decode_length_ge (bs : List Nat) : bs.length ≤ (latin1Decode bs).length := by
  induction bs with
  | nil => simp [latin1Decode]
  | cons b t ih =>
    have hb : 1 ≤ (latin1Byte b).length := by
      by_cases h : b < 128 <;> simp [latin1Byte, h]
    simp only [latin1Decode, List.flatMap_cons, List.length_append, List.length_cons]
    have := ih
    simp only [latin1Decode] at this
    omega

theorem latin1Decode_length_gt (bs : List Nat) (h : ∃ b ∈ bs, 128 ≤ b) :
    bs.length < (latin1Decode bs).length := by
  induction bs with
  | nil => simp at h
  | cons b t ih =>
    have htail := latin1Decode_length_ge t
    simp only [latin1Decode, List.flatMap_cons, List.length_append, List.length_cons]
    simp only [latin1Decode] at htail
    by_cases hb : b < 128
    · have hrest : ∃ x ∈ t, 128 ≤ x := by
        rcases h with ⟨x, hx, hge⟩
        rcases List.mem_cons.mp hx with rfl | hx2
        · omega
        · exact ⟨x, hx2, hge⟩
      have hih := ih hrest
      simp only [latin1Decode] at hih
      have hblen : (latin1Byte b).length = 1 := by simp [latin1Byte, hb]
      omega
    · have hblen : (latin1Byte b).length = 2 := by simp [latin1Byte, hb]
      omega

theorem drop_append_of_drop (l pre rest : List Nat) (n : Nat) (h : l.drop n = pre ++ rest) :
    l.drop (n + pre.length) = rest := by
  rw [← List.drop_drop pre.length n l, h, List.drop_left]

theorem drop_succ_of_drop_cons {l : List Nat} {n b : Nat} {t : List Nat}
    (h : l.drop n = b :: t) : l.drop (n + 1) = t := by
  have := drop_append_of_drop l [b] t n (by simpa using h)
  simpa using this

theorem get?_of_drop_cons {l : List Nat} {n b : Nat} {t : List Nat}
    (h : l.drop n = b :: t) : l[n]? = some b := by
  have h0 := List.getElem?_drop l n 0
  rw [h] at h0
  simpa using h0.symm

theorem lt_length_of_drop_cons {l : List Nat} {n b : Nat} {t : List Nat}
    (h : l.drop n = b :: t) : n < l.length := by
  by_contra hn
  push_neg at hn
  rw [List.drop_eq_nil_of_le hn] at h
  exact List.noConfusion h

theorem sub_eq_of_drop {l : List Nat} {n : Nat} {r : List Nat} (h : l.drop n = r) :
    l.length - n = r.length := by
  rw [← h, List.length_drop]

theorem idx_ok {l : List Nat} {n b : Nat} {t : List Nat} (h : l.drop n = b :: t) :
    idx l n = .ok b := by
  simp [idx, get?_of_drop_cons h]

theorem csub_ok {a b : Nat} (h : b ≤ a) : csub a b = .ok (a - b) := by
  simp [csub, h]

theorem readLe_ok (l : List Nat) (offset k v : Nat) (rest : List Nat)
    (h : l.drop offset = natToLe k v ++ rest) :
    readLe l offset k = .ok (leToNat (natToLe k v)) := by
  have ht : (l.drop offset).take k = natToLe k v := by
    rw [h]; exact List.take_left' (natToLe_length k v)
  simp [readLe, ht, natToLe_length]

theorem checkSig_round (content : List Nat) (sig : List Nat) :
    ∀ offset rest, content.drop offset = sig ++ rest →
    checkSig content offset sig = .ok (offset + sig.length) := by
  induction sig with
  | nil => intro offset rest h; simp [checkSig]
  | cons sb sig ih =>
    intro offset rest h
    rw [List.cons_append] at h
    have hidx := idx_ok h
    have hdrop : content.drop (offset + 1) = sig ++ rest := drop_succ_of_drop_cons h
    simp only [checkSig, hidx, DRes.ok_bind, eq_self_iff_true, if_true,
      ih (offset + 1) rest hdrop, List.length_cons, DRes.ok.injEq]
    omega

theorem parseTimes_round (content : List Nat) (ts rest : List Nat)
    (hb : ∀ t ∈ ts, t < 2 ^ 64) :
    ∀ offset acc, content.drop offset = ts.flatMap (natToLe 8) ++ rest →
    parseTimes content ts.length offset acc = .ok (offset + 8 * ts.length, acc.reverse ++ ts) := by
  induction ts with
  | nil => intro offset acc h; simp [parseTimes]
  | cons t ts ih =>
    intro offset acc h
    rw [List.flatMap_cons, List.append_assoc] at h
    have h8 : readLe content offset 8 = .ok (leToNat (natToLe 8 t)) :=
      readLe_ok content offset 8 t _ h
    have h256 : (256 : Nat) ^ 8 = 2 ^ 64 := by norm_num
    have hv : leToNat (natToLe 8 t) = t :=
      leToNat_natToLe 8 t (by rw [h256]; exact hb t (List.mem_cons_self t ts))
    have hdrop : content.drop (offset + 8) = ts.flatMap (natToLe 8) ++ rest := by
      have := drop_append_of_drop content (natToLe 8 t) _ offset h
      rwa [natToLe_length] at this
    have hrest : ∀ x ∈ ts, x < 2 ^ 64 := fun x hx => hb x (List.mem_cons_of_mem t hx)
    simp only [List.length_cons, parseTimes, h8, DRes.ok_bind, hv,
      ih hrest (offset + 8) (t :: acc) hdrop]
    simp only [List.reverse_cons, List.append_assoc, List.singleton_append,
      DRes.ok.injEq, Prod.mk.injEq, and_true]
    omega

theorem splitsBytes_cons (s : List Nat) (ss : List (List Nat)) :
    splitsBytes (s :: ss) = s.length :: (s ++ splitsBytes ss) := by
  simp [splitsBytes]

theorem parseSplits_round (content : List Nat) (ss : List (List Nat)) (rest : List Nat)
    (hascii : ∀ s ∈ ss, ∀ b ∈ s, b < 128) :
    ∀ offset acc, content.drop offset = splitsBytes ss ++ rest →
    parseSplits content content.length ss.length offset acc =
      .ok (offset + (splitsBytes ss).length, acc.reverse ++ ss) := by
  induction ss with
  | nil => intro offset acc h; simp [parseSplits, splitsBytes]
  | cons s ss ih =>
    intro offset acc h
    rw [splitsBytes_cons, List.cons_append, List.append_assoc] at h
    have hidx := idx_ok h
    have hdrop1 : content.drop (offset + 1) = s ++ (splitsBytes ss ++ rest) :=
      drop_succ_of_drop_cons h
    have hoff1 : offset + 1 ≤ content.length := lt_length_of_drop_cons h
    have hsub := csub_ok hoff1
    have hrem : content.length - (offset + 1) = s.length + (splitsBytes ss ++ rest).length := by
      have := sub_eq_of_drop hdrop1
      simpa using this
    have htake : (content.drop (offset + 1)).take s.length = s := by
      rw [hdrop1]; exact List.take_left s _
    have hname : latin1Decode ((content.drop (offset + 1)).take s.length) = s := by
      rw [htake]
      exact latin1Decode_ascii s (hascii s (List.mem_cons_self s ss))
    have hdrop2 : content.drop (offset + 1 + s.length) = splitsBytes ss ++ rest :=
      drop_append_of_drop content s _ (offset + 1) hdrop1
    have hrec := ih (fun x hx b hb => hascii x (List.mem_cons_of_mem s hx) b hb)
      (offset + 1 + s.length) (s :: acc) hdrop2
    simp only [List.length_cons, parseSplits, hidx, DRes.ok_bind, hsub,
      if_neg (by omega : ¬ content.length - (offset + 1) < s.length), hname, hrec,
      splitsBytes_cons]
    simp only [List.reverse_cons, List.append_assoc, List.singleton_append,
      DRes.ok.injEq, Prod.mk.injEq, and_true, List.length_cons, List.length_append]
    omega

theorem attemptsBytes_cons (a : AttemptData) (l : List AttemptData) :
    attemptsBytes (a :: l) = attemptBytes a ++ attemptsBytes l := by
  simp [attemptsBytes]

theorem parseAttempts_round (content : List Nat) (l : List AttemptData)
    (hwf : ∀ a ∈ l, a.split_times ≠ [] ∧ (∀ t ∈ a.split_times, t < 2 ^ 64) ∧
      a.total_duration.secs < 2 ^ 64 ∧ a.total_duration.nanos < 1000000000) :
    ∀ offset acc rest, content.drop offset = attemptsBytes l ++ rest →
      offset ≤ content.length →
    parseAttempts content content.length l.length offset acc =
      .ok (offset + (attemptsBytes l).length, acc.reverse ++ l) := by
  induction l with
  | nil => intro offset acc rest h hle; simp [parseAttempts, attemptsBytes]
  | cons a l ih =>
    intro offset acc rest h hle
    obtain ⟨hne, htlt, hslt, hnlt⟩ := hwf a (List.mem_cons_self a l)
    rw [attemptsBytes_cons] at h
    have hsplit : content.drop offset = natToLe 8 a.total_duration.secs ++
        (natToLe 4 a.total_duration.nanos ++ (a.split_times.length ::
          (a.split_times.flatMap (natToLe 8) ++ (attemptsBytes l ++ rest)))) := by
      rw [h]
      simp [attemptBytes, List.append_assoc]
    have hrem0 : content.length - offset =
        (attemptBytes a).length + (attemptsBytes l ++ rest).length := by
      have := sub_eq_of_drop h
      simpa using this
    have hsub0 := csub_ok hle
    have hs8 : readLe content offset 8 = .ok (leToNat (natToLe 8 a.total_duration.secs)) :=
      readLe_ok content offset 8 _ _ hsplit
    have h256 : (256 : Nat) ^ 8 = 2 ^ 64 := by norm_num
    have hs8v : leToNat (natToLe 8 a.total_duration.secs) = a.total_duration.secs :=
      leToNat_natToLe 8 _ (by rw [h256]; exact hslt)
    have hdrop8 : content.drop (offset + 8) = natToLe 4 a.total_duration.nanos ++
        (a.split_times.length :: (a.split_times.flatMap (natToLe 8) ++
          (attemptsBytes l ++ rest))) := by
      have := drop_append_of_drop content (natToLe 8 a.total_duration.secs) _ offset hsplit
      rwa [natToLe_length] at this
    have hn4 : readLe content (offset + 8) 4 = .ok (leToNat (natToLe 4 a.total_duration.nanos)) :=
      readLe_ok content (offset + 8) 4 _ _ hdrop8
    have hn4v : leToNat (natToLe 4 a.total_duration.nanos) = a.total_duration.nanos :=
      leToNat_natToLe 4 _ (by norm_num at hnlt ⊢; omega)
    have hdrop12 : content.drop (offset + 8 + 4) = a.split_times.length ::
        (a.split_times.flatMap (natToLe 8) ++ (attemptsBytes l ++ rest)) := by
      have := drop_append_of_drop content (natToLe 4 a.total_duration.nanos) _ (offset + 8) hdrop8
      rwa [natToLe_length] at this
    have hdrop12' : content.drop (offset + 12) = a.split_times.length ::
        (a.split_times.flatMap (natToLe 8) ++ (attemptsBytes l ++ rest)) := by
      rw [(by omega : offset + 12 = offset + 8 + 4)]
      exact hdrop12
    have hidx12 := idx_ok hdrop12'
    have hdrop13 : content.drop (offset + 13) =
        a.split_times.flatMap (natToLe 8) ++ (attemptsBytes l ++ rest) := by
      have := drop_succ_of_drop_cons hdrop12'
      rwa [(by omega : offset + 12 + 1 = offset + 13)] at this
    have hablen : (attemptBytes a).length = 13 + 8 * a.split_times.length :=
      attemptBytes_length a
    have hle13 : offset + 13 ≤ content.length := by omega
    have hsub13 := csub_ok hle13
    have hrem13 : content.length - (offset + 13) =
        8 * a.split_times.length + (attemptsBytes l ++ rest).length := by omega
    have htimes := parseTimes_round content a.split_times (attemptsBytes l ++ rest)
      htlt (offset + 13) [] hdrop13
    have hdur : Duration.new? a.total_duration.secs a.total_duration.nanos =
        some a.total_duration := by
      simp only [Duration.new?, Nat.div_eq_of_lt hnlt, Nat.add_zero, if_pos hslt,
        Nat.mod_eq_of_lt hnlt]
    have hdropnext : content.drop (offset + 13 + 8 * a.split_times.length) =
        attemptsBytes l ++ rest := by
      have := drop_append_of_drop content (a.split_times.flatMap (natToLe 8)) _
        (offset + 13) hdrop13
      rwa [flatMapLe_length] at this
    have hlenext : offset + 13 + 8 * a.split_times.length ≤ content.length := by omega
    have hrec := ih (fun x hx => hwf x (List.mem_cons_of_mem a hx))
      (offset + 13 + 8 * a.split_times.length) (a :: acc) rest hdropnext hlenext
    have hused0 : a.split_times.length ≠ 0 := fun hz => hne (List.eq_nil_of_length_eq_zero hz)
    simp only [List.length_cons, parseAttempts, hsub0, DRes.ok_bind,
      if_neg (by omega : ¬ content.length - offset < 13), hs8, hs8v, hn4, hn4v, hidx12,
      if_neg hused0, hsub13,
      if_neg (by omega : ¬ content.length - (offset + 13) < 8 * a.split_times.length),
      htimes, hdur, attemptsBytes_cons, List.length_append]
    have hfinal : (DRes.ok (offset + ((attemptBytes a).length + (attemptsBytes l).length),
        acc.reverse ++ a :: l) : DRes (Nat × List AttemptData)) =
        DRes.ok (offset + 13 + 8 * a.split_times.length + (attemptsBytes l).length,
          (a :: acc).reverse ++ l) := by
      simp only [DRes.ok.injEq, Prod.mk.injEq, List.reverse_cons, List.append_assoc,
        List.singleton_append]
      exact ⟨by omega, trivial⟩
    rw [hfinal]
    exact hrec

theorem splitsBytes_pos (ss : List (List Nat)) (h : ss ≠ []) :
    0 < (splitsBytes ss).length := by
  cases ss with
  | nil => exact absurd rfl h
  | cons s ss => simp [splitsBytes_cons]

theorem attemptsBytes_pos (l : List AttemptData) (h : l ≠ []) :
    0 < (attemptsBytes l).length := by
  cases l with
  | nil => exact absurd rfl h
  | cons a l =>
    rw [attemptsBytes_cons, List.length_append, attemptBytes_length]
    omega

theorem from_bytes_layout (name : List Nat) (splits : List (List Nat))
    (attempts : List AttemptData)
    (hn : name ≠ []) (hascii : ∀ b ∈ name, b < 128)
    (hsascii : ∀ s ∈ splits, ∀ b ∈ s, b < 128)
    (hwfA : ∀ a ∈ attempts, a.split_times ≠ [] ∧ (∀ t ∈ a.split_times, t < 2 ^ 64) ∧
      a.total_duration.secs < 2 ^ 64 ∧ a.total_duration.nanos < 1000000000)
    (hne : splits ≠ [] ∨ attempts ≠ []) :
    RunData.from_bytes (SIGNATURE ++ 0 :: name.length ::
      (name ++ splits.length ::
        (splitsBytes splits ++ attempts.length :: attemptsBytes attempts))) =
      .ok ⟨0, name, splits, attempts⟩ := by
  set sB := splitsBytes splits with hsB
  set aB := attemptsBytes attempts with haB
  set bs : List Nat := SIGNATURE ++ 0 :: name.length ::
    (name ++ splits.length :: (sB ++ attempts.length :: aB)) with hbs
  have hd0 : bs.drop 0 = SIGNATURE ++ (0 :: name.length ::
      (name ++ splits.length :: (sB ++ attempts.length :: aB))) := by
    rw [List.drop_zero]
  have hsig : checkSig bs 0 SIGNATURE = .ok 4 := by
    have := checkSig_round bs SIGNATURE 0 _ hd0
    simpa [SIGNATURE] using this
  have hd4 : bs.drop 4 = 0 :: name.length ::
      (name ++ splits.length :: (sB ++ attempts.length :: aB)) := by
    have := drop_append_of_drop bs SIGNATURE _ 0 hd0
    simpa [SIGNATURE] using this
  have hidx4 : idx bs 4 = .ok 0 := idx_ok hd4
  have hd5 : bs.drop 5 = name.length ::
      (name ++ splits.length :: (sB ++ attempts.length :: aB)) := by
    have := drop_succ_of_drop_cons hd4
    simpa using this
  have hidx5 : idx bs 5 = .ok name.length := idx_ok hd5
  have hlt5 : 5 < bs.length := lt_length_of_drop_cons hd5
  have hsub5 : csub bs.length 5 = .ok (bs.length - 5) := csub_ok (by omega)
  have hd6 : bs.drop 6 = name ++ (splits.length :: (sB ++ attempts.length :: aB)) := by
    have := drop_succ_of_drop_cons hd5
    simpa using this
  have h6len : bs.length - 6 = name.length +
      (splits.length :: (sB ++ attempts.length :: aB)).length := by
    have := sub_eq_of_drop hd6
    simpa using this
  have hname0 : ¬ name.length = 0 := by
    intro hz
    exact hn (List.eq_nil_of_length_eq_zero hz)
  have hrem5 : ¬ bs.length - 5 < name.length := by
    simp only [List.length_cons, List.length_append] at h6len
    omega
  have hname : latin1Decode ((bs.drop 6).take name.length) = name := by
    rw [hd6, List.take_left]
    exact latin1Decode_ascii name hascii
  have hd6n : bs.drop (6 + name.length) = splits.length :: (sB ++ attempts.length :: aB) :=
    drop_append_of_drop bs name _ 6 hd6
  have hidx6n : idx bs (6 + name.length) = .ok splits.length := idx_ok hd6n
  have hlt6n : 6 + name.length < bs.length := lt_length_of_drop_cons hd6n
  have hsub6n : csub bs.length (6 + name.length) =
      .ok (bs.length - (6 + name.length)) := csub_ok (by omega)
  have hpos : 0 < sB.length + aB.length := by
    rcases hne with h | h
    · have hx := splitsBytes_pos splits h
      rw [← hsB] at hx
      omega
    · have hx := attemptsBytes_pos attempts h
      rw [← haB] at hx
      omega
  have h6nlen : bs.length - (6 + name.length) = 1 + sB.length + (1 + aB.length) := by
    have := sub_eq_of_drop hd6n
    simp only [List.length_cons, List.length_append] at this
    omega
  have hrem6n : ¬ bs.length - (6 + name.length) ≤ 2 := by omega
  have hd7n : bs.drop (6 + name.length + 1) = sB ++ (attempts.length :: aB) :=
    drop_succ_of_drop_cons hd6n
  have hps : parseSplits bs bs.length splits.length (6 + name.length + 1) [] =
      .ok (6 + name.length + 1 + sB.length, splits) := by
    have := parseSplits_round bs splits (attempts.length :: aB) hsascii
      (6 + name.length + 1) [] hd7n
    simpa [hsB] using this
  have hdA0 : bs.drop (6 + name.length + 1 + sB.length) = attempts.length :: aB :=
    drop_append_of_drop bs sB _ (6 + name.length + 1) hd7n
  have hltA0 : 6 + name.length + 1 + sB.length < bs.length := lt_length_of_drop_cons hdA0
  have hsubA : csub bs.length (6 + name.length + 1 + sB.length) =
      .ok (bs.length - (6 + name.length + 1 + sB.length)) := csub_ok (by omega)
  have hAlen : bs.length - (6 + name.length + 1 + sB.length) = 1 + aB.length := by
    have := sub_eq_of_drop hdA0
    simp only [List.length_cons] at this
    omega
  have hremA : ¬ bs.length - (6 + name.length + 1 + sB.length) = 0 := by omega
  have hidxA : idx bs (6 + name.length + 1 + sB.length) = .ok attempts.length :=
    idx_ok hdA0
  have hdA1 : bs.drop (6 + name.length + 1 + sB.length + 1) = attemptsBytes attempts ++ [] := by
    have := drop_succ_of_drop_cons hdA0
    rw [List.append_nil]
    exact this
  have hpa : parseAttempts bs bs.length attempts.length
      (6 + name.length + 1 + sB.length + 1) [] =
      .ok (6 + name.length + 1 + sB.length + 1 + aB.length, attempts) := by
    have := parseAttempts_round bs attempts hwfA (6 + name.length + 1 + sB.length + 1) [] []
      hdA1 (by omega)
    simpa [haB] using this
  rw [RunData.from_bytes]
  rw [if_neg (by omega : ¬ bs.length < 6)]
  simp only [hsig, DRes.ok_bind, hidx4, VERSION, Nat.lt_irrefl, if_false,
    Nat.reduceAdd, hidx5, if_neg hname0, hsub5, if_neg hrem5, hname, hidx6n, hsub6n,
    if_neg hrem6n, hps, hsubA, if_neg hremA, hidxA, hpa]

theorem as_bytes_ok_inv (r : RunData) (bs : List Nat) (h : r.as_bytes = .ok bs) :
    ∀ a ∈ r.attempts, a.split_times.length ≤ r.splits.length := by
  unfold RunData.as_bytes at h
  by_cases h1 : 255 < r.name.length
  · rw [if_pos h1] at h; exact absurd h (by simp)
  rw [if_neg h1] at h
  by_cases h2 : 255 < r.splits.length
  · rw [if_pos h2] at h; exact absurd h (by simp)
  rw [if_neg h2] at h
  rcases hS : encodeSplits r.splits with e | sb
  · rw [hS] at h; exact absurd h (by simp)
  rw [hS] at h
  simp only [] at h
  by_cases h3 : 255 < r.attempts.length
  · rw [if_pos h3] at h; exact absurd h (by simp)
  rw [if_neg h3] at h
  rcases hA : encodeAttempts r.splits.length 0 r.attempts with e | ab
  · rw [hA] at h; exact absurd h (by simp)
  exact encodeAttempts_ok_mm r.splits.length r.attempts 0 ab hA

theorem parseTimes_ok_len (content : List Nat) (k : Nat) :
    ∀ offset acc res, parseTimes content k offset acc = .ok res →
    res.2.length = acc.length + k := by
  induction k with
  | zero =>
    intro offset acc res h
    simp only [parseTimes, DRes.ok.injEq] at h
    rw [← h]
    simp
  | succ k ih =>
    intro offset acc res h
    simp only [parseTimes] at h
    rcases DRes.bind_eq_ok h with ⟨s, hs, h2⟩
    have := ih (offset + 8) (s :: acc) res h2
    simp only [List.length_cons] at this
    omega

theorem parseAttempts_nonempty (content : List Nat) (contentLen : Nat) (k : Nat) :
    ∀ offset acc res, (∀ a ∈ acc, a.split_times ≠ []) →
    parseAttempts content contentLen k offset acc = .ok res →
    ∀ a ∈ res.2, a.split_times ≠ [] := by
  induction k with
  | zero =>
    intro offset acc res hacc h
    simp only [parseAttempts, DRes.ok.injEq] at h
    rw [← h]
    intro a ha
    exact hacc a (List.mem_reverse.mp ha)
  | succ k ih =>
    intro offset acc res hacc h
    simp only [parseAttempts] at h
    rcases DRes.bind_eq_ok h with ⟨rem, hrem, h⟩
    by_cases h13 : rem < 13
    · rw [if_pos h13] at h; exact absurd h (by simp)
    rw [if_neg h13] at h
    rcases DRes.bind_eq_ok h with ⟨seconds, hsec, h⟩
    rcases DRes.bind_eq_ok h with ⟨nanos, hnan, h⟩
    rcases DRes.bind_eq_ok h with ⟨used, hused, h⟩
    by_cases h0 : used = 0
    · rw [if_pos h0] at h
      exact ih (offset + 13) acc res hacc h
    rw [if_neg h0] at h
    rcases DRes.bind_eq_ok h with ⟨rem2, hrem2, h⟩
    by_cases h8 : rem2 < 8 * used
    · rw [if_pos h8] at h; exact absurd h (by simp)
    rw [if_neg h8] at h
    rcases DRes.bind_eq_ok h with ⟨resT, htimes, h⟩
    rcases hd : Duration.new? seconds nanos with _ | d
    · rw [hd] at h; exact absurd h (by simp)
    rw [hd] at h
    have hTlen : resT.2.length = used := by
      have := parseTimes_ok_len content used (offset + 13) [] resT htimes
      simpa using this
    have hTne : resT.2 ≠ [] := by
      intro hz
      rw [hz] at hTlen
      exact h0 (by simpa using hTlen.symm)
    refine ih resT.1 (⟨d, resT.2⟩ :: acc) res ?_ h
    intro a ha
    rcases List.mem_cons.mp ha with rfl | ha2
    · exact hTne
    · exact hacc a ha2

example :
    RunData.as_bytes ⟨0, [65], [], []⟩ = .ok [98, 115, 115, 69, 0, 1, 65, 0, 0] := by
  decide

example :
    RunData.from_bytes [98, 115, 115, 69, 0, 1, 65, 0, 0] = .err .InvalidSplitsChunk := by
  decide

example :
    RunData.from_bytes [98, 115, 115, 69, 0, 2, 65] = .panic := by
  decide

example :
    RunData.from_bytes [98, 115, 115, 69, 0, 1, 65, 0, 0, 0] =
      .ok ⟨0, [65], [], []⟩ := by
  decide

/-- Claim C1 as stated is false: the Run Data value with version 0, name
consisting of the single byte 65, no splits and no attempts satisfies
every size invariant listed in the claim, its as_bytes succeeds, yet
from_bytes rejects the encoded buffer with InvalidSplitsChunk (fewer than
3 bytes remain after the name), so decode of encode does not return the
value. -/
theorem claim_C1_counterexample :
    (⟨0, [65], [], []⟩ : RunData).version = 0 ∧
    (⟨0, [65], [], []⟩ : RunData).name ≠ [] ∧
    (⟨0, [65], [], []⟩ : RunData).name.length ≤ 255 ∧
    (⟨0, [65], [], []⟩ : RunData).splits.length ≤ 255 ∧
    (⟨0, [65], [], []⟩ : RunData).attempts.length ≤ 255 ∧
    (∀ a ∈ (⟨0, [65], [], []⟩ : RunData).attempts,
      a.split_times.length ≤ (⟨0, [65], [], []⟩ : RunData).splits.length) ∧
    RunData.as_bytes ⟨0, [65], [], []⟩ = .ok [98, 115, 115, 69, 0, 1, 65, 0, 0] ∧
    RunData.from_bytes [98, 115, 115, 69, 0, 1, 65, 0, 0] = .err .InvalidSplitsChunk := by
  decide

/-- Claim C1, amended: for every RunData satisfying the size invariants
and write version 0, and additionally with ASCII name and split-name
bytes (a byte at or above 128 is re-encoded differently by the
byte-to-char read), every attempt holding at least one split time (the
decoder silently drops attempts with a zero used count), and not both the
splits and attempts lists empty (the decoder rejects a buffer with fewer
than 3 bytes after the name), as_bytes succeeds and from_bytes returns an
equal value. -/
theorem claim_C1_roundtrip (r : RunData) (h : r.wf) :
    ∃ bs, r.as_bytes = .ok bs ∧ RunData.from_bytes bs = .ok r := by
  obtain ⟨hv, hn, hn255, hascii, hs255, hsn, ha255, hwfA, hne⟩ := h
  have hwfA' : ∀ a ∈ r.attempts, a.split_times.length ≤ r.splits.length ∧
      a.split_times ≠ [] ∧ (∀ t ∈ a.split_times, t < 2 ^ 64) ∧
      a.total_duration.secs < 2 ^ 64 ∧ a.total_duration.nanos < 1000000000 := hwfA
  have hmm : ∀ a ∈ r.attempts, a.split_times.length ≤ r.splits.length :=
    fun a ha => (hwfA' a ha).1
  have henc := as_bytes_eq r hn255 hs255 (fun s hs => (hsn s hs).1) ha255 hmm
  refine ⟨_, henc, ?_⟩
  rw [hv]
  have hdec := from_bytes_layout r.name r.splits r.attempts hn hascii
    (fun s hs => (hsn s hs).2)
    (fun a ha => ⟨(hwfA' a ha).2.1, (hwfA' a ha).2.2.1,
      (hwfA' a ha).2.2.2.1, (hwfA' a ha).2.2.2.2⟩) hne
  rw [hdec]
  obtain ⟨version, name, splits, attempts⟩ := r
  simp only at hv
  rw [hv]

/-- Claim C1 witness: a concrete well-formed run (one split, no
attempts) round-trips. -/
theorem claim_C1_roundtrip_witness :
    (⟨0, [65], [[66]], []⟩ : RunData).wf ∧
    ∃ bs, RunData.as_bytes ⟨0, [65], [[66]], []⟩ = .ok bs ∧
      RunData.from_bytes bs = .ok ⟨0, [65], [[66]], []⟩ :=
  ⟨by decide, claim_C1_roundtrip ⟨0, [65], [[66]], []⟩ (by decide)⟩

/-- Claim C2 is false of the code: on the 7-byte buffer with a valid
signature, version 0 and name-length byte 2 followed by a single name
byte, from_bytes panics instead of returning a ParseErr.  The name-length
check compares against the remaining size before the length byte is
consumed, so a buffer whose total length is exactly 5 plus the name
length passes the check; the subsequent remaining-size subtraction
underflows (and, under wrapping arithmetic, the following index is out of
bounds). -/
theorem claim_C2_panic :
    RunData.from_bytes [98, 115, 115, 69, 0, 2, 65] = .panic := by
  decide

/-- Claim C6: any buffer of length at least 6 whose first four bytes are
the signature and whose fifth byte is a version greater than 0 is
rejected with UnknownVersion, whatever the remaining bytes hold. -/
theorem claim_C6_version (content : List Nat) (hlen : 6 ≤ content.length)
    (hsig : content.take 4 = SIGNATURE) (v : Nat) (hv : content[4]? = some v)
    (hpos : 0 < v) :
    RunData.from_bytes content = .err .UnknownVersion := by
  have hd0 : content.drop 0 = SIGNATURE ++ content.drop 4 := by
    rw [List.drop_zero, ← hsig]
    exact (List.take_append_drop 4 content).symm
  have hsig4 : checkSig content 0 SIGNATURE = .ok 4 := by
    have := checkSig_round content SIGNATURE 0 _ hd0
    simpa [SIGNATURE] using this
  have hidx : idx content 4 = .ok v := by
    simp [idx, hv]
  rw [RunData.from_bytes, if_neg (by omega : ¬ content.length < 6)]
  simp only [hsig4, DRes.ok_bind, hidx, VERSION, if_pos hpos]

/-- Claim C6 witness: the 6-byte buffer with valid signature and version
byte 1 is rejected with UnknownVersion. -/
theorem claim_C6_version_witness :
    RunData.from_bytes [98, 115, 115, 69, 1, 0] = .err .UnknownVersion :=
  claim_C6_version [98, 115, 115, 69, 1, 0] (by decide) (by decide) 1 rfl (by decide)

/-- Claim C7: pause on an idle stopwatch returns the accumulated elapsed
value and leaves the state unchanged, and two consecutive pause calls
return the same value both times. -/
theorem claim_C7_pause_idem :
    (∀ (sw : Stopwatch) (now : Nat), sw.start_time = none →
      sw.pause now = (sw, sw.elapsed)) ∧
    (∀ (sw : Stopwatch) (now now2 : Nat),
      ((sw.pause now).1.pause now2).2 = (sw.pause now).2) := by
  constructor
  · intro sw now hidle
    obtain ⟨st, e⟩ := sw
    simp only at hidle
    rw [hidle]
    rfl
  · intro sw now now2
    obtain ⟨st, e⟩ := sw
    cases st with
    | none => rfl
    | some x => rfl

/-- Claim C7 witness: concrete idle and running stopwatches. -/
theorem claim_C7_pause_idem_witness :
    Stopwatch.pause ⟨none, 7⟩ 3 = (⟨none, 7⟩, 7) ∧
    ((Stopwatch.pause ⟨some 2, 7⟩ 5).1.pause 9).2 = (Stopwatch.pause ⟨some 2, 7⟩ 5).2 :=
  ⟨claim_C7_pause_idem.1 ⟨none, 7⟩ 3 rfl, claim_C7_pause_idem.2 ⟨some 2, 7⟩ 5 9⟩

/-- Claim C8: for a run named UrMom:Any% (bytes below), get_title returns
UrMom, get_subtitle returns Any%, and after set_subtitle with the empty
string the subtitle is gone and the stored name is the bare title UrMom
with no colon. -/
theorem claim_C8_subtitle :
    RunData.get_title ⟨0, [85, 114, 77, 111, 109, 58, 65, 110, 121, 37], [], []⟩ =
      [85, 114, 77, 111, 109] ∧
    RunData.get_subtitle ⟨0, [85, 114, 77, 111, 109, 58, 65, 110, 121, 37], [], []⟩ =
      some [65, 110, 121, 37] ∧
    (RunData.set_subtitle ⟨0, [85, 114, 77, 111, 109, 58, 65, 110, 121, 37], [], []⟩ []).name =
      [85, 114, 77, 111, 109] ∧
    RunData.get_subtitle
      (RunData.set_subtitle ⟨0, [85, 114, 77, 111, 109, 58, 65, 110, 121, 37], [], []⟩ []) =
      none := by
  decide

/-- Claim C3 as stated is false: the split with split_start 0, elapsed 5
and completed true (reached by start_at_zero then stop at
stopwatch-elapsed 5) does not keep its elapsed value under a further stop
call; stop against a stopwatch whose elapsed is 9 overwrites elapsed with
9. -/
theorem claim_C3_counterexample :
    StopSplit.stop (StopSplit.new.start_at_zero) ⟨none, 5⟩ 0 = some ⟨some 0, 5, true⟩ ∧
    StopSplit.stop ⟨some 0, 5, true⟩ ⟨none, 9⟩ 0 = some ⟨some 0, 9, true⟩ ∧
    (9 : Nat) ≠ 5 := by
  decide

/-- Claim C3, amended: once a split is completed, time_elapsed (and hence
elapsed_against) returns the stored elapsed value regardless of the
stopwatch argument, so the value is frozen under queries until clear or
resume; and after start_at_zero then stop at stopwatch-elapsed t,
time_elapsed returns t against any stopwatch.  However, a further stop
call on a started split recomputes elapsed from the given stopwatch
instead of leaving it unchanged. -/
theorem claim_C3_frozen :
    (∀ (sp : StopSplit) (sw : Stopwatch) (now st : Nat),
      sp.split_start = some st → sp.completed = true →
      sp.time_elapsed sw now = sp.elapsed) ∧
    (∀ (sw sw2 : Stopwatch) (now now2 : Nat) (sp : StopSplit),
      StopSplit.stop (StopSplit.new.start_at_zero) sw now = some sp →
      sp.time_elapsed sw2 now2 = sw.time_elapsed now) := by
  constructor
  · intro sp sw now st hst hc
    rw [StopSplit.time_elapsed, hst, hc]
    simp
  · intro sw sw2 now now2 sp hstop
    have hz : StopSplit.new.start_at_zero = ⟨some 0, 0, false⟩ := rfl
    rw [hz, StopSplit.stop] at hstop
    simp only [Nat.zero_le, if_pos, Option.some.injEq] at hstop
    rw [← hstop, StopSplit.time_elapsed]
    simp

/-- Claim C3 witness: a completed split with frozen elapsed 5 reports 5
against two unrelated stopwatches, and the start_at_zero/stop scenario
reports the stopping stopwatch's elapsed value. -/
theorem claim_C3_frozen_witness :
    StopSplit.time_elapsed ⟨some 0, 5, true⟩ ⟨none, 9⟩ 0 = 5 ∧
    StopSplit.time_elapsed ⟨some 0, 5, true⟩ ⟨some 1, 2⟩ 7 = 5 ∧
    StopSplit.time_elapsed ⟨some 0, 5, true⟩ ⟨none, 9⟩ 4 =
      Stopwatch.time_elapsed ⟨none, 5⟩ 0 :=
  ⟨claim_C3_frozen.1 ⟨some 0, 5, true⟩ ⟨none, 9⟩ 0 0 rfl rfl,
   claim_C3_frozen.1 ⟨some 0, 5, true⟩ ⟨some 1, 2⟩ 7 0 rfl rfl,
   claim_C3_frozen.2 ⟨none, 5⟩ ⟨none, 9⟩ 0 4 ⟨some 0, 5, true⟩ (by decide)⟩

set_option maxRecDepth 4096 in
/-- Claim C4 as stated is false: a RunData whose name is 256 bytes long
and which contains an attempt with one split time against zero splits
fails with the run-name length error, not the mismatch error (the length
checks run first). -/
theorem claim_C4_counterexample :
    RunData.as_bytes ⟨0, List.replicate 256 65, [], [⟨⟨0, 0⟩, [0]⟩]⟩ =
      .error (.runNameTooLong 256) ∧
    EncodeErr.isLengthErr (.runNameTooLong 256) = true ∧
    (⟨0, List.replicate 256 65, [], [⟨⟨0, 0⟩, [0]⟩]⟩ : RunData).splits.length <
      (⟨⟨0, 0⟩, [0]⟩ : AttemptData).split_times.length := by
  decide

/-- Claim C4, amended: a RunData containing an attempt with more split
times than the run has splits never yields a byte buffer; and provided
the name, split names, splits count and attempts count are within their
255 caps, as_bytes fails precisely with the mismatch error identifying
such an attempt's index and the two counts. -/
theorem claim_C4_mismatch (r : RunData)
    (hmm : ∃ a ∈ r.attempts, r.splits.length < a.split_times.length) :
    (∀ bs, r.as_bytes ≠ .ok bs) ∧
    (r.name.length ≤ 255 → r.splits.length ≤ 255 → (∀ s ∈ r.splits, s.length ≤ 255) →
      r.attempts.length ≤ 255 →
      ∃ k a, r.attempts.get? k = some a ∧ r.splits.length < a.split_times.length ∧
        r.as_bytes = .error (.attemptMismatch k r.splits.length a.split_times.length)) := by
  constructor
  · intro bs hok
    rcases hmm with ⟨a, ha, hlt⟩
    exact absurd (as_bytes_ok_inv r bs hok a ha) (by omega)
  · intro hname hsc hsn hac
    rcases encodeAttempts_err r.splits.length r.attempts hmm 0 with ⟨k, a, hget, hlt, herr⟩
    refine ⟨k, a, hget, hlt, ?_⟩
    rw [RunData.as_bytes, if_neg (by omega : ¬ 255 < r.name.length),
      if_neg (by omega : ¬ 255 < r.splits.length), encodeSplits_eq r.splits hsn]
    simp only [Nat.zero_add] at herr
    simp only [if_neg (by omega : ¬ 255 < r.attempts.length), herr]

/-- Claim C4 witness: a cap-respecting run with zero splits and one
attempt recording one split time fails with the mismatch error naming
attempt 0 and the counts 0 and 1, and never yields a buffer. -/
theorem claim_C4_mismatch_witness :
    (∀ bs, RunData.as_bytes ⟨0, [65], [], [⟨⟨0, 0⟩, [0]⟩]⟩ ≠ .ok bs) ∧
    (∃ k a, (⟨0, [65], [], [⟨⟨0, 0⟩, [0]⟩]⟩ : RunData).attempts.get? k = some a ∧
      (⟨0, [65], [], [⟨⟨0, 0⟩, [0]⟩]⟩ : RunData).splits.length < a.split_times.length ∧
      RunData.as_bytes ⟨0, [65], [], [⟨⟨0, 0⟩, [0]⟩]⟩ =
        .error (.attemptMismatch k 0 a.split_times.length)) :=
  ⟨(claim_C4_mismatch ⟨0, [65], [], [⟨⟨0, 0⟩, [0]⟩]⟩ (by decide)).1,
   (claim_C4_mismatch ⟨0, [65], [], [⟨⟨0, 0⟩, [0]⟩]⟩ (by decide)).2
     (by decide) (by decide) (by decide) (by decide)⟩

/-- Claim C5: as_bytes fails with a length error whenever the name is
longer than 255 bytes, or there are more than 255 splits, or some split
name is longer than 255 bytes, or there are more than 255 attempts; and
when all four quantities are within their caps it never fails with a
length error, and succeeds outright when additionally no attempt exceeds
the run's split count. -/
theorem claim_C5_length_errors (r : RunData) :
    ((255 < r.name.length ∨ 255 < r.splits.length ∨ (∃ s ∈ r.splits, 255 < s.length) ∨
        255 < r.attempts.length) →
      ∃ e, r.as_bytes = .error e ∧ e.isLengthErr = true) ∧
    ((r.name.length ≤ 255 ∧ r.splits.length ≤ 255 ∧ (∀ s ∈ r.splits, s.length ≤ 255) ∧
        r.attempts.length ≤ 255) →
      (∀ e, r.as_bytes = .error e → e.isLengthErr = false) ∧
      ((∀ a ∈ r.attempts, a.split_times.length ≤ r.splits.length) →
        ∃ bs, r.as_bytes = .ok bs)) := by
  constructor
  · intro hviol
    by_cases h1 : 255 < r.name.length
    · exact ⟨.runNameTooLong r.name.length, by rw [RunData.as_bytes, if_pos h1], rfl⟩
    by_cases h2 : 255 < r.splits.length
    · exact ⟨.tooManySplits r.splits.length,
        by rw [RunData.as_bytes, if_neg h1, if_pos h2], rfl⟩
    by_cases h3 : ∃ s ∈ r.splits, 255 < s.length
    · rcases encodeSplits_err r.splits h3 with ⟨s, hslen, herr⟩
      refine ⟨.splitNameTooLong s s.length, ?_, rfl⟩
      rw [RunData.as_bytes, if_neg h1, if_neg h2, herr]
    · have h4 : 255 < r.attempts.length := by
        rcases hviol with h | h | h | h
        · omega
        · omega
        · exact absurd h h3
        · exact h
      push_neg at h3
      refine ⟨.tooManyAttempts r.attempts.length, ?_, rfl⟩
      rw [RunData.as_bytes, if_neg h1, if_neg h2,
        encodeSplits_eq r.splits (fun s hs => by have := h3 s hs; omega)]
      simp only [if_pos h4]
  · rintro ⟨h1, h2, h3, h4⟩
    constructor
    · intro e herr
      rw [RunData.as_bytes, if_neg (by omega : ¬ 255 < r.name.length),
        if_neg (by omega : ¬ 255 < r.splits.length), encodeSplits_eq r.splits h3,
        ] at herr
      simp only [if_neg (by omega : ¬ 255 < r.attempts.length)] at herr
      rcases hA : encodeAttempts r.splits.length 0 r.attempts with e2 | ab
      · rw [hA] at herr
        simp only [Except.error.injEq] at herr
        rcases encodeAttempts_err_shape r.splits.length r.attempts 0 e2 hA with ⟨k, m, u, hsh⟩
        rw [← herr, hsh]
        rfl
      · rw [hA] at herr
        exact absurd herr (by simp)
    · intro hmm
      exact ⟨_, as_bytes_eq r (by omega) (by omega) h3 (by omega) hmm⟩

set_option maxRecDepth 4096 in
/-- Claim C5 witness: a run with a 256-byte name fails with a length
error; a cap-respecting run never yields a length error and encodes
successfully when mismatch-free. -/
theorem claim_C5_length_errors_witness :
    (∃ e, RunData.as_bytes ⟨0, List.replicate 256 65, [], []⟩ = .error e ∧
      e.isLengthErr = true) ∧
    (∀ e, RunData.as_bytes ⟨0, [65], [[66]], []⟩ = .error e → e.isLengthErr = false) ∧
    (∃ bs, RunData.as_bytes ⟨0, [65], [[66]], []⟩ = .ok bs) :=
  ⟨(claim_C5_length_errors ⟨0, List.replicate 256 65, [], []⟩).1 (by decide),
   ((claim_C5_length_errors ⟨0, [65], [[66]], []⟩).2 (by decide)).1,
   ((claim_C5_length_errors ⟨0, [65], [[66]], []⟩).2 (by decide)).2 (by decide)⟩

/-- Claim C9: every attempt in a successfully decoded RunData has a
non-empty split_times list, because an attempt record whose used count
byte is 0 is skipped without being appended. -/
theorem claim_C9_attempts_nonempty (content : List Nat) (r : RunData)
    (h : RunData.from_bytes content = .ok r) :
    ∀ a ∈ r.attempts, a.split_times ≠ [] := by
  unfold RunData.from_bytes at h
  by_cases h6 : content.length < 6
  · rw [if_pos h6] at h; exact absurd h (by simp)
  rw [if_neg h6] at h
  rcases DRes.bind_eq_ok h with ⟨off0, _, h⟩
  rcases DRes.bind_eq_ok h with ⟨version, _, h⟩
  by_cases hv : VERSION < version
  · rw [if_pos hv] at h; exact absurd h (by simp)
  rw [if_neg hv] at h
  rcases DRes.bind_eq_ok h with ⟨name_len, _, h⟩
  by_cases hn0 : name_len = 0
  · rw [if_pos hn0] at h; exact absurd h (by simp)
  rw [if_neg hn0] at h
  rcases DRes.bind_eq_ok h with ⟨rem0, _, h⟩
  by_cases hr0 : rem0 < name_len
  · rw [if_pos hr0] at h; exact absurd h (by simp)
  rw [if_neg hr0] at h
  rcases DRes.bind_eq_ok h with ⟨rem1, _, h⟩
  by_cases hr1 : rem1 ≤ 2
  · rw [if_pos hr1] at h; exact absurd h (by simp)
  rw [if_neg hr1] at h
  rcases DRes.bind_eq_ok h with ⟨splits_n, _, h⟩
  rcases DRes.bind_eq_ok h with ⟨resS, _, h⟩
  rcases DRes.bind_eq_ok h with ⟨rem2, _, h⟩
  by_cases hr2 : rem2 = 0
  · rw [if_pos hr2] at h; exact absurd h (by simp)
  rw [if_neg hr2] at h
  rcases DRes.bind_eq_ok h with ⟨attempts_n, _, h⟩
  rcases DRes.bind_eq_ok h with ⟨resA, hpa, h⟩
  simp only [DRes.ok.injEq] at h
  subst h
  exact parseAttempts_nonempty content content.length attempts_n (resS.1 + 1) [] resA
    (by simp) hpa

/-- Claim C9 witness: a decoded buffer holding one attempt with one split
time yields an attempt with a non-empty list. -/
theorem claim_C9_attempts_nonempty_witness :
    (⟨⟨2, 0⟩, [5]⟩ : AttemptData).split_times ≠ [] :=
  claim_C9_attempts_nonempty
    [98, 115, 115, 69, 0, 1, 65, 0, 1, 2, 0, 0, 0, 0, 0, 0, 0, 0, 0, 0, 0, 1,
      5, 0, 0, 0, 0, 0, 0, 0]
    ⟨0, [65], [], [⟨⟨2, 0⟩, [5]⟩]⟩ (by decide) ⟨⟨2, 0⟩, [5]⟩ (by decide)

/-- Claim C10: from_bytes decodes name bytes by mapping each byte to the
Unicode scalar of equal value: a buffer whose name field holds arbitrary
bytes (valid UTF-8 or not) is accepted, an all-ASCII name is
reconstructed exactly, and a name containing a byte at or above 128
decodes to a string whose UTF-8 byte sequence differs from the input
bytes. -/
theorem claim_C10_latin1 (ns : List Nat) (h0 : ns ≠ []) (_h255 : ns.length ≤ 255)
    (_hbyte : ∀ b ∈ ns, b < 256) :
    RunData.from_bytes (SIGNATURE ++ 0 :: ns.length :: (ns ++ [0, 0, 0])) =
      .ok ⟨0, latin1Decode ns, [], []⟩ ∧
    ((∀ b ∈ ns, b < 128) → latin1Decode ns = ns) ∧
    ((∃ b ∈ ns, 128 ≤ b) → latin1Decode ns ≠ ns) := by
  refine ⟨?_, fun ha => latin1Decode_ascii ns ha, fun hb heq => ?_⟩
  · set bs : List Nat := SIGNATURE ++ 0 :: ns.length :: (ns ++ [0, 0, 0]) with hbs
    have hd0 : bs.drop 0 = SIGNATURE ++ (0 :: ns.length :: (ns ++ [0, 0, 0])) := by
      rw [List.drop_zero]
    have hsig : checkSig bs 0 SIGNATURE = .ok 4 := by
      simpa [SIGNATURE] using checkSig_round bs SIGNATURE 0 _ hd0
    have hd4 : bs.drop 4 = 0 :: ns.length :: (ns ++ [0, 0, 0]) := by
      simpa [SIGNATURE] using drop_append_of_drop bs SIGNATURE _ 0 hd0
    have hidx4 := idx_ok hd4
    have hd5 : bs.drop 5 = ns.length :: (ns ++ [0, 0, 0]) := by
      simpa using drop_succ_of_drop_cons hd4
    have hidx5 := idx_ok hd5
    have hlt5 : 5 < bs.length := lt_length_of_drop_cons hd5
    have hn0 : ¬ ns.length = 0 := fun hz => h0 (List.eq_nil_of_length_eq_zero hz)
    have hsub5 := csub_ok (show 5 ≤ bs.length by omega)
    have hd6 : bs.drop 6 = ns ++ [0, 0, 0] := by
      simpa using drop_succ_of_drop_cons hd5
    have h6len : bs.length - 6 = ns.length + 3 := by
      simpa using sub_eq_of_drop hd6
    have h5len := sub_eq_of_drop hd5
    simp only [List.length_cons, List.length_append, List.length_nil] at h5len
    have hlen9 : bs.length = ns.length + 9 := by omega
    have hrem5 : ¬ bs.length - 5 < ns.length := by omega
    have hname : latin1Decode ((bs.drop 6).take ns.length) = latin1Decode ns := by
      rw [hd6, List.take_left]
    have hd6n : bs.drop (6 + ns.length) = 0 :: [0, 0] :=
      drop_append_of_drop bs ns _ 6 hd6
    have hidx6n := idx_ok hd6n
    have hsub6n := csub_ok (show 6 + ns.length ≤ bs.length by omega)
    have hrem6n : ¬ bs.length - (6 + ns.length) ≤ 2 := by omega
    have hps : parseSplits bs bs.length 0 (6 + ns.length + 1) [] =
        .ok (6 + ns.length + 1, []) := rfl
    have hd7n : bs.drop (6 + ns.length + 1) = 0 :: [0] := drop_succ_of_drop_cons hd6n
    have hsubA := csub_ok (show 6 + ns.length + 1 ≤ bs.length by omega)
    have hremA : ¬ bs.length - (6 + ns.length + 1) = 0 := by omega
    have hidxA := idx_ok hd7n
    have hpa : parseAttempts bs bs.length 0 (6 + ns.length + 1 + 1) [] =
        .ok (6 + ns.length + 1 + 1, []) := rfl
    rw [RunData.from_bytes, if_neg (by omega : ¬ bs.length < 6)]
    simp only [hsig, DRes.ok_bind, hidx4, VERSION, Nat.lt_irrefl, if_false, Nat.reduceAdd,
      hidx5, if_neg hn0, hsub5, if_neg hrem5, hname, hidx6n, hsub6n, if_neg hrem6n, hps,
      hsubA, if_neg hremA, hidxA, hpa]
  · have hlt := latin1Decode_length_gt ns hb
    rw [heq] at hlt
    omega

/-- Claim C10 witness: the single non-ASCII byte 200 is accepted and
decodes to the two UTF-8 bytes 195, 136, which differ from the input. -/
theorem claim_C10_latin1_witness :
    (RunData.from_bytes (SIGNATURE ++ 0 :: List.length [200] :: ([200] ++ [0, 0, 0])) =
      .ok ⟨0, latin1Decode [200], [], []⟩) ∧
    latin1Decode [200] ≠ [200] :=
  ⟨(claim_C10_latin1 [200] (by decide) (by decide) (by decide)).1,
   (claim_C10_latin1 [200] (by decide) (by decide) (by decide)).2.2
     ⟨200, by decide, by decide⟩⟩
